import Mathlib

/-!
Verification development for the streaming answer assembler, the
policy-data extractor and the graph relationship parsers of this
repository's front end.  JavaScript strings are embedded as Lean
`String`s; the JS primitives `String.prototype.split`, `trim` and
`includes` are modelled by the char-level functions below so that all
definitions compute by kernel reduction.
-/

/-- Whitespace characters removed by `String.prototype.trim` (the common
ones that occur in chat responses; the full JS set also has exotic
Unicode spaces, which never arise here). -/
def jsWhitespace (c : Char) : Bool :=
  c = ' ' || c = '\t' || c = '\n' || c = '\r'

/-- Char-level trim: drop whitespace from both ends. -/
def trimChars (l : List Char) : List Char :=
  ((l.dropWhile jsWhitespace).reverse.dropWhile jsWhitespace).reverse

/-- Model of `s.trim()`. -/
def jsTrim (s : String) : String :=
  ⟨trimChars s.toList⟩

/-- Char-level model of `String.prototype.split(sep)` for a non-empty
separator; `fuel` is an upper bound on the recursion (any value larger
than the input length gives the splitting). -/
def splitSep (sep : List Char) : Nat → List Char → List Char → List (List Char)
  | 0, l, acc => [acc.reverse ++ l]
  | fuel + 1, l, acc =>
    match l with
    | [] => [acc.reverse]
    | c :: rest =>
      if sep.isPrefixOf (c :: rest) then
        acc.reverse :: splitSep sep fuel (List.drop sep.length (c :: rest)) []
      else
        splitSep sep fuel rest (c :: acc)

/-- Model of `s.split(sep)` (JS semantics for a non-empty separator). -/
def jsSplitOn (s sep : String) : List String :=
  (splitSep sep.toList (s.toList.length + 1) s.toList []).map fun l => ⟨l⟩

/-- Model of `s.includes(c)` for a single character. -/
def jsContains (s : String) (c : Char) : Bool :=
  s.toList.contains c

/-- Concatenation of a list of strings, in order. -/
def concatAll : List String → String
  | [] => ""
  | s :: rest => s ++ concatAll rest

/-! ## Streaming answer assembler (`handleAsyncRequest` in the Chat page)

A JS object such as the response `context` is embedded as an association
list of string keys and values; `{ ...old, ...new }` keeps every key of
`old` (with the value from `new` when `new` also has the key) and appends
the keys only `new` has. -/

/-- A JS object used as a string-keyed dictionary. -/
abbrev Ctx : Type := List (String × String)

/-- Property lookup on the object: first entry with the key, if any. -/
def ctxLookup (c : Ctx) (k : String) : Option String :=
  (List.find? (fun p => p.1 = k) c).map (·.2)

/-- Model of `askResponse.context = { ...askResponse.context, ...event["context"] }`. -/
def mergeContext (old new : Ctx) : Ctx :=
  (old.map fun p => match ctxLookup new p.1 with
    | some w => (p.1, w)
    | none => p) ++
  new.filter (fun p => (ctxLookup old p.1).isNone)

/-- The `delta` / `message` payload of a chat event or response. -/
structure RMessage where
  content : String
  role : String
  deriving DecidableEq

/-- The `ChatAppResponse` fields the assembler manipulates.  The initial
`{} as ChatAppResponse` cast leaves `message` undefined, hence the
`Option`. -/
structure ChatResp where
  message : Option RMessage
  context : Ctx
  deriving DecidableEq

/-- One decoded NDJSON line, classified the way the `if`/`else if` chain
of `handleAsyncRequest` classifies it: a `context.data_points` frame
(which also installs `event["delta"]` as the message), a non-empty
`delta.content` fragment, a context-only update, or an error line. -/
inductive StreamEvent where
  | frame (message : Option RMessage) (context : Ctx)
  | delta (content : String)
  | ctx (context : Ctx)
  | errorEvent (msg : String)
  deriving DecidableEq

/-- Mutable state of `handleAsyncRequest`: the `answer` accumulator and
`askResponse`. -/
structure AsmState where
  answer : String
  askResponse : ChatResp
  deriving DecidableEq

/-- State before the event loop: `answer = ""`, `askResponse = {} as ChatAppResponse`. -/
def initAsmState : AsmState :=
  { answer := "", askResponse := { message := none, context := [] } }

/-- One iteration of the `for await` loop.  A `delta` whose content is the
empty string is falsy in JS, so it matches no branch and is skipped;
`updateState` reads `askResponse.message.role`, which fails when `message`
is still undefined (modelled as an error outcome). -/
def stepEvent (st : AsmState) (e : StreamEvent) : Except String AsmState :=
  match e with
  | .frame m c => .ok { st with askResponse := { message := m, context := c } }
  | .delta content =>
    if content = "" then .ok st
    else
      match st.askResponse.message with
      | none => .error "TypeError: askResponse.message is undefined"
      | some _ => .ok { st with answer := st.answer ++ content }
  | .ctx c =>
    .ok { st with askResponse :=
      { st.askResponse with context := mergeContext st.askResponse.context c } }
  | .errorEvent msg => .error msg

/-- The event loop. -/
def consumeEvents : AsmState → List StreamEvent → Except String AsmState
  | st, [] => .ok st
  | st, e :: es =>
    match stepEvent st e with
    | .ok st' => consumeEvents st' es
    | .error m => .error m

/-- Function `handleAsyncRequest`: run the loop, then build `fullResponse` with
`message.content = answer` and `message.role = askResponse.message.role`. -/
def handleAsyncRequest (events : List StreamEvent) : Except String ChatResp :=
  match consumeEvents initAsmState events with
  | .error m => .error m
  | .ok st =>
    match st.askResponse.message with
    | none => .error "TypeError: askResponse.message is undefined"
    | some m =>
      .ok { st.askResponse with message := some { content := st.answer, role := m.role } }

/-- Events decoded from a chunked byte stream, as `readNDJSONStream`
produces them: the decoded text depends only on the concatenation of the
chunks; it is split into lines and each line is decoded (a line that is
not an event, e.g. a blank one, yields nothing). -/
def ndjsonEvents (parseLine : String → Option StreamEvent) (chunks : List String) : List StreamEvent :=
  (jsSplitOn (concatAll chunks) "\n").filterMap parseLine

/-- The content fragments of the delta events, in order. -/
def deltaFragments (events : List StreamEvent) : List String :=
  events.filterMap fun e =>
    match e with
    | .delta c => some c
    | _ => none

/-- The streaming branch of `makeApiRequest`: on success the parsed
response is appended to `answers`; a thrown error is caught and `answers`
is left alone. -/
def appendStreamedAnswer (answers : List (String × ChatResp)) (question : String)
    (events : List StreamEvent) : List (String × ChatResp) :=
  match handleAsyncRequest events with
  | .ok r => answers ++ [(question, r)]
  | .error _ => answers

/-! ### Lemmas about the assembler -/

theorem consumeEvents_append (l1 l2 : List StreamEvent) (st : AsmState) :
    consumeEvents st (l1 ++ l2) =
      match consumeEvents st l1 with
      | .ok st' => consumeEvents st' l2
      | .error m => .error m := by
  induction l1 generalizing st with
  | nil => rfl
  | cons e es ih =>
    cases hstep : stepEvent st e with
    | ok st' =>
      show consumeEvents st (e :: (es ++ l2)) = _
      simp only [consumeEvents, hstep]
      exact ih st'
    | error m =>
      show consumeEvents st (e :: (es ++ l2)) = _
      simp only [consumeEvents, hstep]

theorem consumeEvents_answer (es : List StreamEvent) (st st' : AsmState)
    (h : consumeEvents st es = .ok st') :
    st'.answer = st.answer ++ concatAll (deltaFragments es) := by
  induction es generalizing st with
  | nil =>
    cases h
    exact (String.append_empty _).symm
  | cons e es ih =>
    cases e with
    | frame m c =>
      have h' : consumeEvents { st with askResponse := { message := m, context := c } } es = .ok st' := h
      simpa [deltaFragments] using ih _ h'
    | delta content =>
      by_cases hc : content = ""
      · subst hc
        have h' : consumeEvents st es = .ok st' := by
          simpa [consumeEvents, stepEvent] using h
        have := ih _ h'
        simpa [deltaFragments, String.empty_append] using this
      · cases hm : st.askResponse.message with
        | none =>
          exfalso
          simp [consumeEvents, stepEvent, hc, hm] at h
        | some m =>
          have h' : consumeEvents { st with answer := st.answer ++ content } es = .ok st' := by
            simpa [consumeEvents, stepEvent, hc, hm] using h
          have := ih _ h'
          simpa [deltaFragments, String.append_assoc] using this
    | ctx c =>
      have h' : consumeEvents { st with askResponse :=
          { st.askResponse with context := mergeContext st.askResponse.context c } } es = .ok st' := h
      simpa [deltaFragments] using ih _ h'
    | errorEvent m =>
      exact Except.noConfusion h

theorem ctxLookup_cons (q : String × String) (l : Ctx) (k : String) :
    ctxLookup (q :: l) k = if q.1 = k then some q.2 else ctxLookup l k := by
  by_cases h : q.1 = k
  · rw [if_pos h]
    unfold ctxLookup
    rw [List.find?_cons_of_pos _ (by simpa using h)]
    rfl
  · rw [if_neg h]
    unfold ctxLookup
    rw [List.find?_cons_of_neg _ (by simpa using h)]

theorem ctxLookup_append (l1 l2 : Ctx) (k : String) :
    ctxLookup (l1 ++ l2) k =
      match ctxLookup l1 k with
      | some v => some v
      | none => ctxLookup l2 k := by
  induction l1 with
  | nil => simp [ctxLookup]
  | cons q l ih =>
    rw [List.cons_append, ctxLookup_cons, ctxLookup_cons]
    by_cases h : q.1 = k
    · rw [if_pos h, if_pos h]
    · rw [if_neg h, if_neg h, ih]

theorem ctxLookup_mergeMap (old new : Ctx) (k : String) :
    ctxLookup (old.map fun p => match ctxLookup new p.1 with
      | some w => (p.1, w)
      | none => p) k =
      match ctxLookup old k with
      | none => none
      | some v =>
        some (match ctxLookup new k with
          | some w => w
          | none => v) := by
  induction old with
  | nil => simp [ctxLookup]
  | cons p l ih =>
    rw [List.map_cons, ctxLookup_cons, ctxLookup_cons]
    cases h : ctxLookup new p.1 with
    | some w =>
      simp only [h]
      by_cases hp : p.1 = k
      · rw [if_pos hp, if_pos hp]
        rw [← hp, h]
      · rw [if_neg hp, if_neg hp, ih]
    | none =>
      simp only [h]
      by_cases hp : p.1 = k
      · rw [if_pos hp, if_pos hp]
        rw [← hp, h]
      · rw [if_neg hp, if_neg hp, ih]

theorem ctxLookup_filter_of_none (new old : Ctx) (k : String)
    (hold : ctxLookup old k = none) :
    ctxLookup (new.filter fun p => (ctxLookup old p.1).isNone) k = ctxLookup new k := by
  induction new with
  | nil => rfl
  | cons p l ih =>
    rw [List.filter_cons, ctxLookup_cons]
    by_cases hp : p.1 = k
    · have hkeep : ((ctxLookup old p.1).isNone = true) := by rw [hp, hold]; rfl
      rw [if_pos hkeep, ctxLookup_cons, if_pos hp, if_pos hp]
    · by_cases hkeep : ((ctxLookup old p.1).isNone = true)
      · rw [if_pos hkeep, ctxLookup_cons, if_neg hp, if_neg hp, ih]
      · rw [if_neg hkeep, if_neg hp, ih]

/-- Lookup after `{ ...old, ...new }`: a key present in `new` reads its
value from `new`, otherwise the old binding (if any) survives. -/
theorem mergeContext_lookup (old new : Ctx) (k : String) :
    ctxLookup (mergeContext old new) k =
      match ctxLookup new k with
      | some w => some w
      | none => ctxLookup old k := by
  unfold mergeContext
  rw [ctxLookup_append, ctxLookup_mergeMap]
  cases hOld : ctxLookup old k with
  | some v => cases hNew : ctxLookup new k <;> simp
  | none =>
    rw [ctxLookup_filter_of_none new old k hOld]
    cases hNew : ctxLookup new k <;> simp

theorem findSome?_concat {α β : Type} (l : List α) (a : α) (f : α → Option β) :
    (l ++ [a]).findSome? f =
      match l.findSome? f with
      | some w => some w
      | none => f a := by
  induction l with
  | nil =>
    show List.findSome? f [a] = _
    cases h : f a <;> simp [List.findSome?, h]
  | cons x l ih =>
    show List.findSome? f (x :: (l ++ [a])) = _
    cases h : f x <;> simp [List.findSome?, h, ih]

/-! ### Claim theorems for the assembler -/

/-- C1: for every sequence of delta events with fragments `f1..fn` consumed
by `handleAsyncRequest`, the assembled `message.content` is `f1 ++ ... ++ fn`
in arrival order, and the decoded event sequence does not depend on how the
byte stream was chunked (only on the concatenation of the chunks). -/
theorem handleAsyncRequest_content_concat
    (parseLine : String → Option StreamEvent) (chunks chunks' : List String) (r : ChatResp)
    (hjoin : concatAll chunks = concatAll chunks') :
    ndjsonEvents parseLine chunks = ndjsonEvents parseLine chunks' ∧
    (handleAsyncRequest (ndjsonEvents parseLine chunks) = .ok r →
      ∃ role, r.message = some
        { content := concatAll (deltaFragments (ndjsonEvents parseLine chunks)),
          role := role }) := by
  constructor
  · unfold ndjsonEvents
    rw [hjoin]
  · intro h
    unfold handleAsyncRequest at h
    cases hc : consumeEvents initAsmState (ndjsonEvents parseLine chunks) with
    | error m =>
      rw [hc] at h
      exact Except.noConfusion h
    | ok st =>
      rw [hc] at h
      cases hm : st.askResponse.message with
      | none =>
        simp only [hm] at h
        exact Except.noConfusion h
      | some m =>
        simp only [hm] at h
        have hr : ({ st.askResponse with
            message := some { content := st.answer, role := m.role } } : ChatResp) = r := by
          cases h
          rfl
        have hans := consumeEvents_answer _ _ _ hc
        rw [show initAsmState.answer = "" from rfl, String.empty_append] at hans
        exact ⟨m.role, by rw [← hr, ← hans]⟩

/-- Concrete line decoder used by the witnesses: `"F"` is the initial
`context.data_points` frame, anything else a delta fragment, blank lines
nothing. -/
def sampleParseLine : String → Option StreamEvent := fun s =>
  if s = "" then none
  else if s = "F" then
    some (.frame (some { content := "", role := "assistant" }) [("thoughts", "t")])
  else some (.delta s)

theorem handleAsyncRequest_content_concat_witness :
    concatAll ["F\nab", "\ncd"] = concatAll ["F", "\nab\ncd"] ∧
    (ndjsonEvents sampleParseLine ["F\nab", "\ncd"] =
      ndjsonEvents sampleParseLine ["F", "\nab\ncd"]) ∧
    ∃ role,
      ({ message := some { content := "abcd", role := "assistant" },
         context := [("thoughts", "t")] } : ChatResp).message = some
        { content := concatAll (deltaFragments (ndjsonEvents sampleParseLine ["F\nab", "\ncd"])),
          role := role } := by
  refine ⟨by decide, ?_, ?_⟩
  · exact (handleAsyncRequest_content_concat sampleParseLine ["F\nab", "\ncd"] ["F", "\nab\ncd"]
      { message := some { content := "abcd", role := "assistant" },
        context := [("thoughts", "t")] } (by decide)).1
  · exact (handleAsyncRequest_content_concat sampleParseLine ["F\nab", "\ncd"] ["F", "\nab\ncd"]
      { message := some { content := "abcd", role := "assistant" },
        context := [("thoughts", "t")] } (by decide)).2 (by rfl)

/-- C6: an error event aborts the stream at once with that error, the
partial text is discarded (the result carries only the message), and the
streaming branch of `makeApiRequest` leaves the `answers` transcript
unchanged on this path. -/
theorem errorEvent_aborts_and_discards
    (pre rest : List StreamEvent) (e : String) (st : AsmState)
    (answers : List (String × ChatResp)) (question : String)
    (h : consumeEvents initAsmState pre = .ok st) :
    handleAsyncRequest (pre ++ StreamEvent.errorEvent e :: rest) = .error e ∧
    appendStreamedAnswer answers question (pre ++ StreamEvent.errorEvent e :: rest) = answers := by
  have habort : consumeEvents initAsmState (pre ++ StreamEvent.errorEvent e :: rest) = .error e := by
    rw [consumeEvents_append, h]
    rfl
  constructor
  · unfold handleAsyncRequest
    rw [habort]
  · unfold appendStreamedAnswer handleAsyncRequest
    rw [habort]

theorem errorEvent_aborts_and_discards_witness :
    handleAsyncRequest
        ([.frame (some { content := "", role := "assistant" }) [], .delta "He", .delta "llo"] ++
          StreamEvent.errorEvent "boom" :: []) = .error "boom" ∧
    appendStreamedAnswer [] "q"
        ([.frame (some { content := "", role := "assistant" }) [], .delta "He", .delta "llo"] ++
          StreamEvent.errorEvent "boom" :: []) = [] :=
  errorEvent_aborts_and_discards
    [.frame (some { content := "", role := "assistant" }) [], .delta "He", .delta "llo"]
    [] "boom"
    { answer := "Hello",
      askResponse := { message := some { content := "", role := "assistant" }, context := [] } }
    [] "q" (by rfl)

/-- C8: the context merge is last-write-wins per key: over any sequence of
context-only events, the final binding of a key is the one provided by the
latest event that mentions it, and a key no later event mentions keeps the
value it already had. -/
theorem contextMerge_lastWriteWins (st : AsmState) (cs : List Ctx) (k : String) :
    ∃ st', consumeEvents st (cs.map StreamEvent.ctx) = .ok st' ∧
      ctxLookup st'.askResponse.context k =
        match cs.reverse.findSome? (fun c => ctxLookup c k) with
        | some w => some w
        | none => ctxLookup st.askResponse.context k := by
  induction cs generalizing st with
  | nil => exact ⟨st, rfl, rfl⟩
  | cons c cs ih =>
    obtain ⟨st', h1, h2⟩ := ih { st with askResponse :=
      { st.askResponse with context := mergeContext st.askResponse.context c } }
    refine ⟨st', h1, ?_⟩
    rw [h2, List.reverse_cons, findSome?_concat]
    simp only
    rw [mergeContext_lookup]
    cases hcs : cs.reverse.findSome? (fun c => ctxLookup c k) with
    | some w => rfl
    | none => cases hc : ctxLookup c k <;> rfl

/-! ## Shared query primitive (`queryRAG` / `queryChatAPI`)

The network interaction of one query is abstracted by its outcome: the
fetch resolved ok and the body carried `message.content` (possibly
missing), the response was non-ok (the code then throws into its own
`catch`), or the fetch/JSON decoding itself threw. -/

/-- Outcome of the one network round trip a query performs. -/
inductive NetOutcome where
  | ok (content : Option String)
  | httpError
  | netThrow
  deriving DecidableEq

/-- Function `queryRAG` (and `PolicyExtractionService.queryChatAPI`, which behaves
identically): `const result = data.message?.content?.trim() ?? ''` and
`return result || 'NF'`; every thrown error is caught and converted to
`'NF'`. -/
def queryRAG (o : NetOutcome) : String :=
  match o with
  | .ok content =>
    let result := match content with
      | some c => jsTrim c
      | none => ""
    if result = "" then "NF" else result
  | .httpError => "NF"
  | .netThrow => "NF"

theorem queryRAG_ne_empty (o : NetOutcome) : queryRAG o ≠ "" := by
  cases o with
  | ok content =>
    cases content with
    | none => simp [queryRAG]
    | some c =>
      by_cases h : jsTrim c = "" <;> simp [queryRAG, h]
  | httpError => simp [queryRAG]
  | netThrow => simp [queryRAG]

/-- The claim's reading of when the query primitive returns `"NF"`:
only on an empty trimmed response, a non-ok response, or a throw. -/
def nfOnlyOnFailure (o : NetOutcome) : Prop :=
  queryRAG o = "NF" →
    o = .httpError ∨ o = .netThrow ∨ o = .ok none ∨
      ∃ c, o = .ok (some c) ∧ jsTrim c = ""

/-- C2, counterexample: when the backend itself answers `"NF"` (a central
case: the prompts instruct it to do exactly that), the primitive returns
`"NF"` although the response is non-empty, the HTTP response is ok and
nothing threw, so "exactly when" fails. -/
theorem queryRAG_NF_counterexample : ¬ nfOnlyOnFailure (.ok (some "NF")) := by
  intro h
  rcases h (by decide) with h2 | h2 | h2 | ⟨c, hc, ht⟩
  · exact NetOutcome.noConfusion h2
  · exact NetOutcome.noConfusion h2
  · rw [show ((NetOutcome.ok (some "NF") = NetOutcome.ok none)) =
      ((some "NF" : Option String) = none) from by
        simp] at h2
    exact Option.noConfusion h2
  · cases hc
    exact absurd ht (by decide)

/-- C2, amended: the query primitive never raises (it is a total function
of the outcome); on an ok response with non-empty trimmed content it
returns that trimmed content; and it returns `"NF"` exactly when the
trimmed response is empty or itself `"NF"`, the response is non-ok, or the
call threw. -/
theorem queryRAG_trim_or_NF (o : NetOutcome) :
    (∀ c, o = .ok (some c) → jsTrim c ≠ "" → queryRAG o = jsTrim c) ∧
    (queryRAG o = "NF" ↔
      (o = .httpError ∨ o = .netThrow ∨ o = .ok none ∨
        ∃ c, o = .ok (some c) ∧ (jsTrim c = "" ∨ jsTrim c = "NF"))) := by
  cases o with
  | ok content =>
    cases content with
    | none =>
      refine ⟨by intro c hc; exact absurd hc (by simp), ?_⟩
      simp [queryRAG]
    | some c =>
      constructor
      · intro c' hc' hne
        have : c' = c := by
          have := hc'
          simp at this
          exact this.symm
        subst this
        simp [queryRAG, hne]
      · by_cases h : jsTrim c = ""
        · simp [queryRAG, h]
        · by_cases h2 : jsTrim c = "NF"
          · simp [queryRAG, h, h2]
          · simp [queryRAG, h, h2]
  | httpError => exact ⟨by intro c hc; exact absurd hc (by simp), by simp [queryRAG]⟩
  | netThrow => exact ⟨by intro c hc; exact absurd hc (by simp), by simp [queryRAG]⟩

theorem queryRAG_trim_or_NF_witness :
    queryRAG (.ok (some " hello ")) = jsTrim " hello " :=
  (queryRAG_trim_or_NF (.ok (some " hello "))).1 " hello " rfl (by decide)

/-- The while loop of `queryWithRetry`.  `fuel` only bounds the recursion; the
loop itself stops through its own guard (`attempts <= maxRetries` and the
result still `'NF'`/empty) or the early `break` on a good result.  The
returned pair is (result, number of queries issued). -/
def retryLoop (outs : Nat → NetOutcome) (maxRetries : Nat) :
    Nat → Nat → String → String × Nat
  | 0, attempts, result => (result, attempts)
  | fuel + 1, attempts, result =>
    if attempts ≤ maxRetries ∧ (result = "NF" ∨ result = "") then
      let r := queryRAG (outs attempts)
      if r ≠ "" ∧ r ≠ "NF" then (r, attempts + 1)
      else retryLoop outs maxRetries fuel (attempts + 1) r
    else (result, attempts)

/-- Function `queryWithRetry`: start with `result = 'NF'`, `attempts = 0`.  The
`maxRetries + 1` fuel is enough because `attempts` grows by one per
iteration and the guard stops at `maxRetries`. -/
def queryWithRetry (outs : Nat → NetOutcome) (maxRetries : Nat) : String × Nat :=
  retryLoop outs maxRetries (maxRetries + 1) 0 "NF"

/-- C3: with `maxRetries = 2` at most 3 queries are issued; the first
non-`"NF"` result is returned with no further attempt, and `"NF"` is
returned after all three attempts came back `"NF"`. -/
theorem queryWithRetry_spec (outs : Nat → NetOutcome) :
    (queryWithRetry outs 2).2 ≤ 3 ∧
    (queryRAG (outs 0) ≠ "NF" → queryWithRetry outs 2 = (queryRAG (outs 0), 1)) ∧
    (queryRAG (outs 0) = "NF" → queryRAG (outs 1) ≠ "NF" →
      queryWithRetry outs 2 = (queryRAG (outs 1), 2)) ∧
    (queryRAG (outs 0) = "NF" → queryRAG (outs 1) = "NF" → queryRAG (outs 2) ≠ "NF" →
      queryWithRetry outs 2 = (queryRAG (outs 2), 3)) ∧
    (queryRAG (outs 0) = "NF" → queryRAG (outs 1) = "NF" → queryRAG (outs 2) = "NF" →
      queryWithRetry outs 2 = ("NF", 3)) := by
  have hne0 := queryRAG_ne_empty (outs 0)
  have hne1 := queryRAG_ne_empty (outs 1)
  have hne2 := queryRAG_ne_empty (outs 2)
  have key : queryWithRetry outs 2 =
      if queryRAG (outs 0) ≠ "NF" then (queryRAG (outs 0), 1)
      else if queryRAG (outs 1) ≠ "NF" then (queryRAG (outs 1), 2)
      else if queryRAG (outs 2) ≠ "NF" then (queryRAG (outs 2), 3)
      else ("NF", 3) := by
    by_cases h0 : queryRAG (outs 0) = "NF"
    · by_cases h1 : queryRAG (outs 1) = "NF"
      · by_cases h2 : queryRAG (outs 2) = "NF"
        · simp [queryWithRetry, retryLoop, h0, h1, h2]
        · simp [queryWithRetry, retryLoop, h0, h1, h2, hne2]
      · simp [queryWithRetry, retryLoop, h0, h1, hne1]
    · simp [queryWithRetry, retryLoop, h0, hne0]
  refine ⟨?_, ?_, ?_, ?_, ?_⟩
  · rw [key]
    split_ifs <;> simp
  · intro h0
    rw [key, if_pos h0]
  · intro h0 h1
    rw [key, if_neg (not_not_intro h0), if_pos h1]
  · intro h0 h1 h2
    rw [key, if_neg (not_not_intro h0), if_neg (not_not_intro h1), if_pos h2]
  · intro h0 h1 h2
    rw [key, if_neg (not_not_intro h0), if_neg (not_not_intro h1), if_neg (not_not_intro h2)]

theorem queryWithRetry_spec_witness :
    (queryWithRetry (fun _ => NetOutcome.netThrow) 2).2 ≤ 3 ∧
    queryWithRetry (fun _ => NetOutcome.netThrow) 2 = ("NF", 3) :=
  ⟨(queryWithRetry_spec (fun _ => NetOutcome.netThrow)).1,
   (queryWithRetry_spec (fun _ => NetOutcome.netThrow)).2.2.2.2 rfl rfl rfl⟩

/-! ## Parsing `"value|page"` responses (`extractPolicyData`, phase 4) -/

/-- Model of `const [value, page] = valueResponse.split(pipe).map(part => part.trim())`:
first and second segment of the pipe-split, trimmed, defaulting to `''`.
Segments beyond the second are dropped by the destructuring. -/
def parseValuePage (s : String) : String × String :=
  let parts := (jsSplitOn s "|").map jsTrim
  (parts.getD 0 "", parts.getD 1 "")

/-- Concatenation with `"|"` between elements (used only by the modelled
claim below). -/
def joinWithPipe : List String → String
  | [] => ""
  | [s] => s
  | s :: rest => s ++ "|" ++ joinWithPipe rest

/-- Modelled from the spec: "splits on the first pipe character into a
value part and a page part (both trimmed)", i.e. value is the text before
the first pipe and page all the text after it. -/
def splitOnFirstPipe (s : String) : String × String :=
  match jsSplitOn s "|" with
  | [] => ("", "")
  | v :: rest => (jsTrim v, jsTrim (joinWithPipe rest))

/-- C9, counterexample: on a response with two pipes the extractor keeps
only the second segment as the page, while splitting on the first pipe
would keep everything after the first pipe. -/
theorem parseValuePage_counterexample :
    parseValuePage "a|b|c" = ("a", "b") ∧
    splitOnFirstPipe "a|b|c" = ("a", "b|c") ∧
    parseValuePage "a|b|c" ≠ splitOnFirstPipe "a|b|c" := by
  refine ⟨by rfl, by rfl, ?_⟩
  intro h
  rw [show parseValuePage "a|b|c" = ("a", "b") from rfl,
    show splitOnFirstPipe "a|b|c" = ("a", "b|c") from rfl] at h
  have hsnd : ("b" : String) = "b|c" := congrArg Prod.snd h
  exact absurd hsnd (by decide)

theorem splitSep_succ (sep : List Char) (fuel : Nat) (c : Char) (rest acc : List Char) :
    splitSep sep (fuel + 1) (c :: rest) acc =
      if sep.isPrefixOf (c :: rest) then
        acc.reverse :: splitSep sep fuel (List.drop sep.length (c :: rest)) []
      else splitSep sep fuel rest (c :: acc) := rfl

theorem pipePrefix (c : Char) (l : List Char) :
    (['|'] : List Char).isPrefixOf (c :: l) = (c == '|') := by
  show ('|' == c && List.isPrefixOf [] l) = (c == '|')
  rw [show List.isPrefixOf ([] : List Char) l = true from by cases l <;> rfl, Bool.and_true]
  by_cases h : c = '|' <;> simp [h]
  exact fun hh => h hh.symm

theorem splitSep_fuel_congr (sep : List Char) (hsep : sep ≠ []) :
    ∀ fuel fuel' (l acc : List Char), l.length < fuel → l.length < fuel' →
      splitSep sep fuel l acc = splitSep sep fuel' l acc := by
  intro fuel
  induction fuel with
  | zero =>
    intro fuel' l acc hf _
    exact absurd hf (Nat.not_lt_zero _)
  | succ f ih =>
    intro fuel' l acc hf hf'
    cases fuel' with
    | zero => exact absurd hf' (Nat.not_lt_zero _)
    | succ f' =>
      cases l with
      | nil => rfl
      | cons c rest =>
        have hseplen : 1 ≤ sep.length := List.length_pos.mpr hsep
        simp only [splitSep]
        by_cases hpre : sep.isPrefixOf (c :: rest) = true
        · rw [if_pos hpre, if_pos hpre]
          have hlen : (List.drop sep.length (c :: rest)).length = rest.length + 1 - sep.length := by
            simp [List.length_drop]
          have h1 : (List.drop sep.length (c :: rest)).length < f := by
            rw [hlen]
            simp only [List.length_cons] at hf
            omega
          have h2 : (List.drop sep.length (c :: rest)).length < f' := by
            rw [hlen]
            simp only [List.length_cons] at hf'
            omega
          rw [ih f' _ [] h1 h2]
        · rw [if_neg hpre, if_neg hpre]
          have h1 : rest.length < f := by
            simp only [List.length_cons] at hf
            omega
          have h2 : rest.length < f' := by
            simp only [List.length_cons] at hf'
            omega
          exact ih f' rest (c :: acc) h1 h2

theorem splitSep_no_pipe (v : List Char) (hv : '|' ∉ v) :
    ∀ fuel (acc : List Char), v.length < fuel →
      splitSep ['|'] fuel v acc = [acc.reverse ++ v] := by
  induction v with
  | nil =>
    intro fuel acc hf
    cases fuel with
    | zero => exact absurd hf (Nat.not_lt_zero _)
    | succ f => simp [splitSep]
  | cons c v' ih =>
    intro fuel acc hf
    cases fuel with
    | zero => exact absurd hf (Nat.not_lt_zero _)
    | succ f =>
      have hc : c ≠ '|' := fun h => hv (by rw [h]; exact List.mem_cons_self _ _)
      rw [splitSep_succ]
      rw [if_neg (by rw [pipePrefix]; simp [hc])]
      have hv' : '|' ∉ v' := fun h => hv (List.mem_cons_of_mem _ h)
      have h1 : v'.length < f := by
        simp only [List.length_cons] at hf
        omega
      rw [ih hv' f (c :: acc) h1]
      simp

theorem splitSep_pipe_split (v w : List Char) (hv : '|' ∉ v) :
    ∀ fuel (acc : List Char), v.length + 1 + w.length < fuel →
      splitSep ['|'] fuel (v ++ '|' :: w) acc =
        (acc.reverse ++ v) :: splitSep ['|'] (w.length + 1) w [] := by
  induction v with
  | nil =>
    intro fuel acc hf
    cases fuel with
    | zero => exact absurd hf (Nat.not_lt_zero _)
    | succ f =>
      rw [List.nil_append, splitSep_succ]
      rw [if_pos (by rw [pipePrefix]; simp)]
      have hw : (List.drop 1 ('|' :: w)) = w := by simp
      rw [show (['|'] : List Char).length = 1 from rfl, hw]
      have h1 : w.length < f := by
        simp only [List.length_nil] at hf
        omega
      rw [splitSep_fuel_congr ['|'] (by simp) f (w.length + 1) w [] h1 (Nat.lt_succ_self _)]
      simp
  | cons c v' ih =>
    intro fuel acc hf
    cases fuel with
    | zero => exact absurd hf (Nat.not_lt_zero _)
    | succ f =>
      have hc : c ≠ '|' := fun h => hv (by rw [h]; exact List.mem_cons_self _ _)
      have hv' : '|' ∉ v' := fun h => hv (List.mem_cons_of_mem _ h)
      rw [List.cons_append, splitSep_succ]
      rw [if_neg (by rw [pipePrefix]; simp [hc])]
      have h1 : v'.length + 1 + w.length < f := by
        simp only [List.length_cons] at hf
        omega
      rw [ih hv' f (c :: acc) h1]
      simp

theorem jsSplitOn_pipe_two (v p : String) (hv : '|' ∉ v.toList) (hp : '|' ∉ p.toList) :
    jsSplitOn (v ++ "|" ++ p) "|" = [v, p] := by
  obtain ⟨vd⟩ := v
  obtain ⟨pd⟩ := p
  simp only [String.toList] at hv hp
  show (splitSep ['|'] _ (String.mk vd ++ "|" ++ String.mk pd).toList []).map _ = _
  have hdata : (String.mk vd ++ "|" ++ String.mk pd).toList = vd ++ '|' :: pd := by
    show (String.mk vd ++ "|" ++ String.mk pd).data = _
    rw [String.data_append, String.data_append]
    show vd ++ ("|" : String).data ++ pd = vd ++ '|' :: pd
    rw [show ("|" : String).data = ['|'] from rfl]
    simp [List.append_assoc]
  rw [hdata]
  rw [splitSep_pipe_split vd pd hv _ [] (by simp [List.length_append]; omega)]
  rw [splitSep_no_pipe pd hp _ [] (Nat.lt_succ_self _)]
  rfl

theorem jsSplitOn_pipe_three (v p r : String) (hv : '|' ∉ v.toList) (hp : '|' ∉ p.toList) :
    jsSplitOn (v ++ "|" ++ p ++ "|" ++ r) "|" = v :: p :: jsSplitOn r "|" := by
  obtain ⟨vd⟩ := v
  obtain ⟨pd⟩ := p
  obtain ⟨rd⟩ := r
  simp only [String.toList] at hv hp
  show (splitSep ['|'] _ (String.mk vd ++ "|" ++ String.mk pd ++ "|" ++ String.mk rd).toList []).map _ = _
  have hdata : (String.mk vd ++ "|" ++ String.mk pd ++ "|" ++ String.mk rd).toList =
      vd ++ '|' :: (pd ++ '|' :: rd) := by
    show (String.mk vd ++ "|" ++ String.mk pd ++ "|" ++ String.mk rd).data = _
    rw [String.data_append, String.data_append, String.data_append, String.data_append]
    show vd ++ ("|" : String).data ++ pd ++ ("|" : String).data ++ rd = _
    rw [show ("|" : String).data = ['|'] from rfl]
    simp [List.append_assoc]
  rw [hdata]
  rw [splitSep_pipe_split vd (pd ++ '|' :: rd) hv _ []
    (by simp [List.length_append]; omega)]
  rw [splitSep_pipe_split pd rd hp _ []
    (by simp [List.length_append]; omega)]
  rfl

/-- C9, amended: the extractor splits the response on pipe characters and
stores the first segment (trimmed) as the value and the second segment
(trimmed) as the page, discarding any later segments; in particular
`"$500,000|12"` is stored as value `"$500,000"`, page `"12"`. -/
theorem parseValuePage_segments (v p rest : String)
    (hv : '|' ∉ v.toList) (hp : '|' ∉ p.toList) :
    parseValuePage (v ++ "|" ++ p) = (jsTrim v, jsTrim p) ∧
    parseValuePage (v ++ "|" ++ p ++ "|" ++ rest) = (jsTrim v, jsTrim p) ∧
    parseValuePage "$500,000|12" = ("$500,000", "12") := by
  refine ⟨?_, ?_, by rfl⟩
  · unfold parseValuePage
    rw [jsSplitOn_pipe_two v p hv hp]
    rfl
  · unfold parseValuePage
    rw [jsSplitOn_pipe_three v p rest hv hp]
    rfl

theorem parseValuePage_segments_witness :
    parseValuePage ("$500,000" ++ "|" ++ "12") = (jsTrim "$500,000", jsTrim "12") ∧
    parseValuePage ("$500,000" ++ "|" ++ "12" ++ "|" ++ "9") = (jsTrim "$500,000", jsTrim "12") ∧
    parseValuePage "$500,000|12" = ("$500,000", "12") :=
  parseValuePage_segments "$500,000" "12" "9" (by decide) (by decide)

/-! ## Graph relationship parsers (`parseGraph`, two revisions)

`nodesMap` is a JS `Map` from node id to `{ id, label }`; since the value
stored under a key is always `{ id: key, label: key }`, `Map.set` either
leaves the map unchanged (key present, same value written back in place)
or appends a new entry. -/

/-- A graph node `{ id, label }`. -/
structure GNode where
  id : String
  label : String
  deriving DecidableEq

/-- JS `Map.set` on the insertion-ordered association list: replace the
value in place if the key is present, else append. -/
def mapSet (m : List (String × GNode)) (k : String) (v : GNode) : List (String × GNode) :=
  if m.any (fun p => p.1 = k) then
    m.map (fun p => if p.1 = k then (k, v) else p)
  else m ++ [(k, v)]

/-- Model of `if (!nodesMap.has(k)) nodesMap.set(k, ...)` storing the canonical node. -/
def addNodeId (m : List (String × GNode)) (k : String) : List (String × GNode) :=
  if m.any (fun p => p.1 = k) then m else m ++ [(k, ⟨k, k⟩)]

/-- Every stored node is the canonical `{ id: key, label: key }`. -/
def Canon (m : List (String × GNode)) : Prop :=
  ∀ p ∈ m, p.2 = GNode.mk p.1 p.1

theorem canon_nil : Canon [] := by
  intro p hp
  exact absurd hp (List.not_mem_nil p)

theorem mapSet_canon_eq (m : List (String × GNode)) (k : String) (h : Canon m) :
    mapSet m k ⟨k, k⟩ = addNodeId m k := by
  unfold mapSet addNodeId
  by_cases hany : m.any (fun p => p.1 = k)
  · rw [if_pos hany, if_pos hany]
    have hcongr : ∀ p ∈ m, (if p.1 = k then (k, (⟨k, k⟩ : GNode)) else p) = id p := by
      intro p hp
      by_cases hpk : p.1 = k
      · rw [if_pos hpk, id]
        have h2 := h p hp
        rw [show p = (p.1, p.2) from rfl, h2, hpk]
      · rw [if_neg hpk, id]
    rw [List.map_congr_left hcongr, List.map_id]
  · rw [if_neg hany, if_neg hany]

theorem addNodeId_canon (m : List (String × GNode)) (k : String) (h : Canon m) :
    Canon (addNodeId m k) := by
  unfold addNodeId
  by_cases hany : m.any (fun p => p.1 = k)
  · rw [if_pos hany]; exact h
  · rw [if_neg hany]
    intro p hp
    rcases List.mem_append.mp hp with h1 | h1
    · exact h p h1
    · have : p = (k, ⟨k, k⟩) := by simpa using h1
      rw [this]

theorem addNodeId_key_mem (m : List (String × GNode)) (k a : String) :
    (∃ p ∈ addNodeId m k, p.1 = a) ↔ (∃ p ∈ m, p.1 = a) ∨ a = k := by
  unfold addNodeId
  by_cases hany : m.any (fun p => p.1 = k)
  · rw [if_pos hany]
    constructor
    · rintro ⟨p, hp, hpa⟩
      exact Or.inl ⟨p, hp, hpa⟩
    · rintro (⟨p, hp, hpa⟩ | heq)
      · exact ⟨p, hp, hpa⟩
      · subst heq
        obtain ⟨p, hp, hpk⟩ := List.any_eq_true.mp hany
        exact ⟨p, hp, by simpa using hpk⟩
  · rw [if_neg hany]
    constructor
    · rintro ⟨p, hp, hpa⟩
      rcases List.mem_append.mp hp with h1 | h1
      · exact Or.inl ⟨p, h1, hpa⟩
      · have : p = (k, ⟨k, k⟩) := by simpa using h1
        rw [this] at hpa
        exact Or.inr hpa.symm
    · rintro (⟨p, hp, hpa⟩ | heq)
      · exact ⟨p, List.mem_append_left _ hp, hpa⟩
      · rw [heq]
        exact ⟨(k, ⟨k, k⟩), List.mem_append_right _ (by simp), rfl⟩

theorem addNodeId_keys_nodup (m : List (String × GNode)) (k : String)
    (h : (m.map (fun p => p.1)).Nodup) : ((addNodeId m k).map (fun p => p.1)).Nodup := by
  unfold addNodeId
  by_cases hany : m.any (fun p => p.1 = k)
  · rw [if_pos hany]; exact h
  · rw [if_neg hany, List.map_append]
    rw [List.nodup_append]
    refine ⟨h, by simp, ?_⟩
    intro a ha
    have hne : a ≠ k := by
      intro rfl_eq
      obtain ⟨p, hp, hpk⟩ := List.mem_map.mp ha
      rw [rfl_eq] at hpk
      have : m.any (fun p => p.1 = k) = true :=
        List.any_eq_true.mpr ⟨p, hp, by simpa using hpk⟩
      exact hany this
    simpa using hne

theorem foldAdd_canon (ids : List String) (m : List (String × GNode)) (h : Canon m) :
    Canon (ids.foldl addNodeId m) := by
  induction ids generalizing m with
  | nil => exact h
  | cons i ids ih => exact ih _ (addNodeId_canon m i h)

theorem foldAdd_key_mem (ids : List String) (m : List (String × GNode)) (a : String) :
    (∃ p ∈ ids.foldl addNodeId m, p.1 = a) ↔ (∃ p ∈ m, p.1 = a) ∨ a ∈ ids := by
  induction ids generalizing m with
  | nil => simp
  | cons i ids ih =>
    rw [List.foldl_cons, ih, addNodeId_key_mem]
    rw [List.mem_cons]
    exact or_assoc

theorem foldAdd_keys_nodup (ids : List String) (m : List (String × GNode))
    (h : (m.map (fun p => p.1)).Nodup) :
    ((ids.foldl addNodeId m).map (fun p => p.1)).Nodup := by
  induction ids generalizing m with
  | nil => exact h
  | cons i ids ih => exact ih _ (addNodeId_keys_nodup m i h)

/-- Model of `edges.filter((e, i) => edges.findIndex(ee => key ee === key e) === i)`:
keep the first edge for each key, in order. -/
def dedupByKey {α β : Type} [DecidableEq β] (key : α → β) (l : List α) : List α :=
  (l.foldl
    (fun acc a => if key a ∈ acc.2 then acc else (acc.1 ++ [a], acc.2 ++ [key a]))
    ([], [])).1

theorem dedupFold_spec {α β : Type} [DecidableEq β] (key : α → β) :
    ∀ (l rows : List α) (keys : List β), keys = rows.map key →
      ∃ app,
        l.foldl
          (fun acc a => if key a ∈ acc.2 then acc else (acc.1 ++ [a], acc.2 ++ [key a]))
          (rows, keys) = (rows ++ app, (rows ++ app).map key) ∧
        (∀ x ∈ app, key x ∉ keys) ∧ (app.map key).Nodup ∧ (∀ x ∈ app, x ∈ l) ∧
        (∀ a ∈ l, key a ∈ (rows ++ app).map key) := by
  intro l
  induction l with
  | nil =>
    intro rows keys hkeys
    refine ⟨[], ?_, by simp, by simp, by simp, by simp⟩
    simp [hkeys]
  | cons a l ih =>
    intro rows keys hkeys
    by_cases hmem : key a ∈ keys
    · rw [List.foldl_cons, if_pos hmem]
      obtain ⟨app, h1, h2, h3, h4, h5⟩ := ih rows keys hkeys
      refine ⟨app, h1, h2, h3, ?_, ?_⟩
      · intro x hx
        exact List.mem_cons_of_mem _ (h4 x hx)
      · intro b hb
        rcases List.mem_cons.mp hb with rfl | hb'
        · rw [List.map_append]
          exact List.mem_append_left _ (by rw [← hkeys]; exact hmem)
        · exact h5 b hb'
    · rw [List.foldl_cons, if_neg hmem]
      obtain ⟨app, h1, h2, h3, h4, h5⟩ :=
        ih (rows ++ [a]) (keys ++ [key a]) (by rw [hkeys, List.map_append]; rfl)
      refine ⟨a :: app, ?_, ?_, ?_, ?_, ?_⟩
      · rw [h1, List.append_assoc]
        rfl
      · intro x hx
        rcases List.mem_cons.mp hx with rfl | hx'
        · exact hmem
        · intro hk
          exact h2 x hx' (List.mem_append_left _ hk)
      · rw [List.map_cons, List.nodup_cons]
        refine ⟨?_, h3⟩
        intro hk
        obtain ⟨x, hx, hxk⟩ := List.mem_map.mp hk
        exact h2 x hx (by rw [hxk]; exact List.mem_append_right _ (by simp))
      · intro x hx
        rcases List.mem_cons.mp hx with rfl | hx'
        · exact List.mem_cons_self _ _
        · exact List.mem_cons_of_mem _ (h4 x hx')
      · intro b hb
        rcases List.mem_cons.mp hb with heq | hb'
        · rw [heq, show rows ++ a :: app = (rows ++ [a]) ++ app from by
            rw [List.append_assoc]; rfl, List.map_append]
          exact List.mem_append_left _ (by rw [List.map_append]; simp)
        · have := h5 b hb'
          rwa [show (rows ++ [a]) ++ app = rows ++ a :: app from by
            rw [List.append_assoc]; rfl] at this

theorem dedupByKey_spec {α β : Type} [DecidableEq β] (key : α → β) (l : List α) :
    ((dedupByKey key l).map key).Nodup ∧ (∀ x ∈ dedupByKey key l, x ∈ l) ∧
      (∀ a ∈ l, key a ∈ (dedupByKey key l).map key) := by
  obtain ⟨app, h1, _, h3, h4, h5⟩ := dedupFold_spec key l [] [] rfl
  have hd : dedupByKey key l = app := by
    unfold dedupByKey
    rw [h1]
    simp
  rw [hd]
  exact ⟨h3, h4, fun a ha => by simpa using h5 a ha⟩

/-- Concatenation with `"->"` between elements (to reconstruct the text a
greedy third capture group spans). -/
def joinWithArrow : List String → String
  | [] => ""
  | [s] => s
  | s :: rest => s ++ "->" ++ joinWithArrow rest

namespace Rev4

/-- Edge of the first `GraphVisualization` revision: `label` is
`label || undefined`, the id the concatenated string. -/
structure GEdge where
  id : String
  source : String
  target : String
  label : Option String
  deriving DecidableEq

/-- Match against `/^\s*([^>]+?)\s*->\s*([^>]+?)\s*->\s*([^>]+?)\s*$/`
followed by `.map(s => s.trim())`.  The string matches exactly when
splitting on `"->"` yields three segments, each non-empty and free of
`'>'` (a group needs at least one character, may contain `'-'` and
whitespace, and never `'>'`; the surrounding `\s*` plus the final trim
reduce each capture to the trimmed segment). -/
def matchRelation (s : String) : Option (String × String × String) :=
  match jsSplitOn s "->" with
  | [p1, p2, p3] =>
    if p1 = "" || p2 = "" || p3 = "" then none
    else if jsContains p1 '>' || jsContains p2 '>' || jsContains p3 '>' then none
    else some (jsTrim p1, jsTrim p2, jsTrim p3)
  | _ => none

/-- The pushed edge object. -/
def mkEdge (src lab tgt : String) : GEdge :=
  { id := src ++ "-" ++ lab ++ "-" ++ tgt
    source := src
    target := tgt
    label := if lab = "" then none else some lab }

/-- Node ids a line contributes (none when it fails the pattern or the
`if (!source || !target) return` guard fires). -/
def lineNodes (s : String) : List String :=
  match matchRelation s with
  | some (src, _, tgt) => if src = "" || tgt = "" then [] else [src, tgt]
  | none => []

/-- The edge a line contributes, if any. -/
def lineEdge (s : String) : Option GEdge :=
  match matchRelation s with
  | some (src, lab, tgt) => if src = "" || tgt = "" then none else some (mkEdge src lab tgt)
  | none => none

/-- One `relations.forEach` iteration. -/
def parseStep (st : List (String × GNode) × List GEdge) (rel : String) :
    List (String × GNode) × List GEdge :=
  match matchRelation rel with
  | some (src, lab, tgt) =>
    if src = "" || tgt = "" then st
    else (mapSet (mapSet st.1 src ⟨src, src⟩) tgt ⟨tgt, tgt⟩, st.2 ++ [mkEdge src lab tgt])
  | none => st

/-- Function `parseGraph` (first revision): collect nodes in a `Map`, push all
edges, and keep the first edge per id string. -/
def parseGraph (relations : List String) : List GNode × List GEdge :=
  let st := relations.foldl parseStep ([], [])
  (st.1.map (fun p => p.2), dedupByKey (fun e => e.id) st.2)

theorem parseStep_eq (st : List (String × GNode) × List GEdge) (rel : String)
    (hc : Canon st.1) :
    parseStep st rel = ((lineNodes rel).foldl addNodeId st.1, st.2 ++ (lineEdge rel).toList) := by
  cases hm : matchRelation rel with
  | none => simp [parseStep, lineNodes, lineEdge, hm]
  | some t =>
    obtain ⟨src, lab, tgt⟩ := t
    by_cases he : (src = "" || tgt = "") = true
    · simp [parseStep, lineNodes, lineEdge, hm, he]
    · have he' : (src = "" || tgt = "") = false := by simpa using he
      simp only [parseStep, lineNodes, lineEdge, hm, he', Bool.false_eq_true, if_false]
      rw [mapSet_canon_eq st.1 src hc,
        mapSet_canon_eq _ tgt (addNodeId_canon st.1 src hc)]
      simp

theorem parseFold_eq (rels : List String) :
    ∀ (st : List (String × GNode) × List GEdge), Canon st.1 →
      rels.foldl parseStep st =
        ((rels.flatMap lineNodes).foldl addNodeId st.1, st.2 ++ rels.filterMap lineEdge) := by
  induction rels with
  | nil =>
    intro st hc
    simp
  | cons r rels ih =>
    intro st hc
    rw [List.foldl_cons, parseStep_eq st r hc]
    rw [ih _ (foldAdd_canon _ _ hc)]
    rw [List.flatMap_cons, List.foldl_append]
    rw [List.filterMap_cons]
    cases hE : lineEdge r <;> simp [List.append_assoc]

theorem parseGraph_nodes_spec (rels : List String) :
    ((parseGraph rels).1.map GNode.id).Nodup ∧
    ∀ a, (∃ n ∈ (parseGraph rels).1, n.id = a) ↔ ∃ s ∈ rels, a ∈ lineNodes s := by
  have hfold := parseFold_eq rels ([], []) canon_nil
  have hcanon : Canon ((rels.flatMap lineNodes).foldl addNodeId []) := foldAdd_canon _ _ canon_nil
  have hnodes : (parseGraph rels).1 = ((rels.flatMap lineNodes).foldl addNodeId []).map (fun p => p.2) := by
    unfold parseGraph
    rw [hfold]
  constructor
  · rw [hnodes, List.map_map]
    have : ((rels.flatMap lineNodes).foldl addNodeId []).map (GNode.id ∘ fun p => p.2) =
        ((rels.flatMap lineNodes).foldl addNodeId []).map (fun p => p.1) :=
      List.map_congr_left fun p hp => by
        show p.2.id = p.1
        rw [hcanon p hp]
    rw [this]
    exact foldAdd_keys_nodup _ _ (by simp)
  · intro a
    rw [hnodes]
    constructor
    · rintro ⟨n, hn, hna⟩
      obtain ⟨p, hp, hpn⟩ := List.mem_map.mp hn
      have hp1 : p.1 = a := by
        rw [← hna, ← hpn, hcanon p hp]
      have := (foldAdd_key_mem _ _ a).mp ⟨p, hp, hp1⟩
      rcases this with ⟨q, hq, _⟩ | hbind
      · exact absurd hq (List.not_mem_nil q)
      · exact List.mem_flatMap.mp hbind
    · rintro ⟨s, hs, ha⟩
      have : ∃ p ∈ (rels.flatMap lineNodes).foldl addNodeId [], p.1 = a :=
        (foldAdd_key_mem _ _ a).mpr (Or.inr (List.mem_flatMap.mpr ⟨s, hs, ha⟩))
      obtain ⟨p, hp, hp1⟩ := this
      refine ⟨p.2, List.mem_map.mpr ⟨p, hp, rfl⟩, ?_⟩
      rw [hcanon p hp, hp1]

theorem parseGraph_edges_spec (rels : List String) :
    ((parseGraph rels).2.map GEdge.id).Nodup ∧
    (∀ e ∈ (parseGraph rels).2, ∃ s ∈ rels, lineEdge s = some e) ∧
    (∀ s ∈ rels, ∀ e, lineEdge s = some e →
      ∃ e' ∈ (parseGraph rels).2, e'.id = e.id) := by
  have hfold := parseFold_eq rels ([], []) canon_nil
  have hedges : (parseGraph rels).2 = dedupByKey (fun e => e.id) (rels.filterMap lineEdge) := by
    unfold parseGraph
    rw [hfold]
    simp
  obtain ⟨hnd, hsub, hcomp⟩ := dedupByKey_spec (fun e : GEdge => e.id) (rels.filterMap lineEdge)
  refine ⟨by rw [hedges]; exact hnd, ?_, ?_⟩
  · intro e he
    rw [hedges] at he
    exact List.mem_filterMap.mp (hsub e he)
  · intro s hs e hse
    have hmem : e ∈ rels.filterMap lineEdge := List.mem_filterMap.mpr ⟨s, hs, hse⟩
    have := hcomp e hmem
    obtain ⟨e', he', hid⟩ := List.mem_map.mp this
    exact ⟨e', by rw [hedges]; exact he', hid⟩

end Rev4

namespace Rev5

/-- Edge of the second revision: the id also carries the line index, the
label is kept verbatim. -/
structure GEdge where
  id : String
  source : String
  target : String
  label : String
  deriving DecidableEq

/-- JS line terminators, which `.` in a regex never matches (within the
character set modelled here; the full JS set adds U+2028/U+2029, exotic
code points excluded exactly as in `jsWhitespace`). -/
def isLineTerm (c : Char) : Bool :=
  c = '\n' || c = '\r'

/-- Match against `/^\s*([^->]+?)\s*->\s*([^->]+?)\s*->\s*(.+?)\s*$/`
followed by `.map(s => s.trim())`.  The first two groups exclude both
`'-'` and `'>'`, so the first two `"->"` occurrences are consumed as the
arrows and the segments before them must be non-empty and free of `'-'`
and `'>'`.  The third group `(.+?)` spans the remainder after the second
arrow (it may itself contain arrows), but `.` matches no line
terminator while the surrounding `\s*` does: the remainder must hold at
least one non-terminator character (in particular be non-empty), with
the group covering every non-whitespace character, so the span between
the first and last non-whitespace characters must be free of line
terminators; terminators in the leading or trailing whitespace are
absorbed by `\s*`. -/
def matchRelation (s : String) : Option (String × String × String) :=
  match jsSplitOn s "->" with
  | p1 :: p2 :: p3 :: rest =>
    if p1 = "" || p2 = "" then none
    else if jsContains p1 '-' || jsContains p1 '>' ||
        jsContains p2 '-' || jsContains p2 '>' then none
    else
      let tgt := joinWithArrow (p3 :: rest)
      if tgt.toList.all (fun c => isLineTerm c) then none
      else if (trimChars tgt.toList).any (fun c => isLineTerm c) then none
      else some (jsTrim p1, jsTrim p2, jsTrim tgt)
  | _ => none

/-- Node ids a line contributes: both source and target of any match (this
revision has no empty-source/target guard). -/
def lineNodes (s : String) : List String :=
  match matchRelation s with
  | some (src, _, tgt) => [src, tgt]
  | none => []

/-- The edge pushed for line `(index, relation)`, if it matches. -/
def lineEdge (p : Nat × String) : Option GEdge :=
  match matchRelation p.2 with
  | some (src, lab, tgt) =>
    some { id := src ++ "-" ++ lab ++ "-" ++ tgt ++ "-" ++ toString p.1
           source := src
           target := tgt
           label := lab }
  | none => none

/-- One `relations.forEach((relation, index) => ...)` iteration. -/
def parseStep (st : List (String × GNode) × List GEdge) (p : Nat × String) :
    List (String × GNode) × List GEdge :=
  match lineEdge p with
  | some e => (addNodeId (addNodeId st.1 e.source) e.target, st.2 ++ [e])
  | none => st

/-- Function `parseGraph` (second revision): nodes deduplicated by id, edges kept
first-per-(source, target, label) triple. -/
def parseGraph (relations : List String) : List GNode × List GEdge :=
  let st := relations.enum.foldl parseStep ([], [])
  (st.1.map (fun p => p.2),
   dedupByKey (fun e => (e.source, e.target, e.label)) st.2)

theorem lineEdge_nodes (p : Nat × String) (e : GEdge) (h : lineEdge p = some e) :
    lineNodes p.2 = [e.source, e.target] := by
  unfold lineEdge at h
  unfold lineNodes
  cases hm : matchRelation p.2 with
  | none =>
    rw [hm] at h
    exact Option.noConfusion h
  | some t =>
    obtain ⟨src, lab, tgt⟩ := t
    rw [hm] at h
    have := Option.some.inj h
    rw [← this]

theorem parseFoldEnum_eq (l : List (Nat × String)) :
    ∀ (st : List (String × GNode) × List GEdge),
      l.foldl parseStep st =
        ((l.flatMap (fun p => lineNodes p.2)).foldl addNodeId st.1, st.2 ++ l.filterMap lineEdge) := by
  induction l with
  | nil =>
    intro st
    simp
  | cons p l ih =>
    intro st
    rw [List.foldl_cons]
    have hstep : parseStep st p = ((lineNodes p.2).foldl addNodeId st.1, st.2 ++ (lineEdge p).toList) := by
      unfold parseStep
      cases hE : lineEdge p with
      | none =>
        unfold lineNodes
        unfold lineEdge at hE
        cases hm : matchRelation p.2 with
        | none => simp
        | some t =>
          rw [hm] at hE
          exact Option.noConfusion hE
      | some e =>
        rw [lineEdge_nodes p e hE]
        simp
    rw [hstep, ih]
    rw [List.flatMap_cons, List.foldl_append, List.filterMap_cons]
    cases hE : lineEdge p <;> simp [List.append_assoc]

theorem parseGraphEnum_nodes_spec (rels : List String) :
    ((parseGraph rels).1.map GNode.id).Nodup ∧
    ∀ a, (∃ n ∈ (parseGraph rels).1, n.id = a) ↔ ∃ s ∈ rels, a ∈ lineNodes s := by
  have hfold := parseFoldEnum_eq rels.enum ([], [])
  have hbind : rels.enum.flatMap (fun p => lineNodes p.2) = rels.flatMap lineNodes := by
    have h1 : rels.enum.map Prod.snd = rels := List.enum_map_snd rels
    calc rels.enum.flatMap (fun p => lineNodes p.2)
        = (rels.enum.map Prod.snd).flatMap lineNodes := by rw [List.flatMap_map]
      _ = rels.flatMap lineNodes := by rw [h1]
  have hcanon : Canon ((rels.flatMap lineNodes).foldl addNodeId []) := foldAdd_canon _ _ canon_nil
  have hnodes : (parseGraph rels).1 = ((rels.flatMap lineNodes).foldl addNodeId []).map (fun p => p.2) := by
    unfold parseGraph
    rw [hfold, hbind]
  constructor
  · rw [hnodes, List.map_map]
    have : ((rels.flatMap lineNodes).foldl addNodeId []).map (GNode.id ∘ fun p => p.2) =
        ((rels.flatMap lineNodes).foldl addNodeId []).map (fun p => p.1) :=
      List.map_congr_left fun p hp => by
        show p.2.id = p.1
        rw [hcanon p hp]
    rw [this]
    exact foldAdd_keys_nodup _ _ (by simp)
  · intro a
    rw [hnodes]
    constructor
    · rintro ⟨n, hn, hna⟩
      obtain ⟨p, hp, hpn⟩ := List.mem_map.mp hn
      have hp1 : p.1 = a := by
        rw [← hna, ← hpn, hcanon p hp]
      have := (foldAdd_key_mem _ _ a).mp ⟨p, hp, hp1⟩
      rcases this with ⟨q, hq, _⟩ | hbind'
      · exact absurd hq (List.not_mem_nil q)
      · exact List.mem_flatMap.mp hbind'
    · rintro ⟨s, hs, ha⟩
      have : ∃ p ∈ (rels.flatMap lineNodes).foldl addNodeId [], p.1 = a :=
        (foldAdd_key_mem _ _ a).mpr (Or.inr (List.mem_flatMap.mpr ⟨s, hs, ha⟩))
      obtain ⟨p, hp, hp1⟩ := this
      refine ⟨p.2, List.mem_map.mpr ⟨p, hp, rfl⟩, ?_⟩
      rw [hcanon p hp, hp1]

theorem parseGraphEnum_edges_spec (rels : List String) :
    ((parseGraph rels).2.map (fun e => (e.source, e.target, e.label))).Nodup ∧
    (∀ e ∈ (parseGraph rels).2, ∃ p ∈ rels.enum, lineEdge p = some e) ∧
    (∀ p ∈ rels.enum, ∀ e, lineEdge p = some e →
      ∃ e' ∈ (parseGraph rels).2,
        (e'.source, e'.target, e'.label) = (e.source, e.target, e.label)) := by
  have hfold := parseFoldEnum_eq rels.enum ([], [])
  have hedges : (parseGraph rels).2 =
      dedupByKey (fun e => (e.source, e.target, e.label)) (rels.enum.filterMap lineEdge) := by
    unfold parseGraph
    rw [hfold]
    simp
  obtain ⟨hnd, hsub, hcomp⟩ :=
    dedupByKey_spec (fun e : GEdge => (e.source, e.target, e.label)) (rels.enum.filterMap lineEdge)
  refine ⟨by rw [hedges]; exact hnd, ?_, ?_⟩
  · intro e he
    rw [hedges] at he
    exact List.mem_filterMap.mp (hsub e he)
  · intro p hp e hpe
    have hmem : e ∈ rels.enum.filterMap lineEdge := List.mem_filterMap.mpr ⟨p, hp, hpe⟩
    have := hcomp e hmem
    obtain ⟨e', he', hid⟩ := List.mem_map.mp this
    exact ⟨e', by rw [hedges]; exact he', hid⟩

end Rev5

/-- C7, counterexample: in the part_005 revision a relation whose source
is only whitespace still matches (the group accepts a whitespace
character) and, with no empty-source guard, inserts a node with empty id;
and in the part_004 revision two distinct well-formed triples,
`("a-b","c","d")` and `("a","b-c","d")`, share the concatenated edge id
`"a-b-c-d"`, so the second edge is dropped and only one edge remains
instead of the two the claimed `(A,B[,r])` identity would keep. -/
theorem parseGraph_counterexample :
    (Rev5.parseGraph ["  -> rel -> b"]).1 = [⟨"", ""⟩, ⟨"b", "b"⟩] ∧
    Rev4.matchRelation "a-b -> c -> d" = some ("a-b", "c", "d") ∧
    Rev4.matchRelation "a -> b-c -> d" = some ("a", "b-c", "d") ∧
    (Rev4.parseGraph ["a-b -> c -> d", "a -> b-c -> d"]).2.length = 1 :=
  ⟨rfl, rfl, rfl, rfl⟩

/-- C7, amended: in both revisions every matched relation contributes its
source and target ids with exactly one node per distinct id, and strings
that fail the pattern contribute nothing.  In the part_004 revision a
match with empty trimmed source or target is skipped, every kept edge
comes from some line, and edges are deduplicated by the concatenated id
string `source-label-target` (which may conflate distinct triples); in
the part_005 revision a whitespace-only source or target still becomes a
node (with empty id), and edges are deduplicated by the
`(source, target, label)` triple. -/
theorem parseGraph_revisions_spec (rels : List String) :
    (((Rev4.parseGraph rels).1.map GNode.id).Nodup ∧
     (∀ a, (∃ n ∈ (Rev4.parseGraph rels).1, n.id = a) ↔ ∃ s ∈ rels, a ∈ Rev4.lineNodes s) ∧
     ((Rev4.parseGraph rels).2.map Rev4.GEdge.id).Nodup ∧
     (∀ e ∈ (Rev4.parseGraph rels).2, ∃ s ∈ rels, Rev4.lineEdge s = some e) ∧
     (∀ s ∈ rels, ∀ e, Rev4.lineEdge s = some e →
        ∃ e' ∈ (Rev4.parseGraph rels).2, e'.id = e.id)) ∧
    (((Rev5.parseGraph rels).1.map GNode.id).Nodup ∧
     (∀ a, (∃ n ∈ (Rev5.parseGraph rels).1, n.id = a) ↔ ∃ s ∈ rels, a ∈ Rev5.lineNodes s) ∧
     ((Rev5.parseGraph rels).2.map (fun e => (e.source, e.target, e.label))).Nodup ∧
     (∀ e ∈ (Rev5.parseGraph rels).2, ∃ p ∈ rels.enum, Rev5.lineEdge p = some e) ∧
     (∀ p ∈ rels.enum, ∀ e, Rev5.lineEdge p = some e →
        ∃ e' ∈ (Rev5.parseGraph rels).2,
          (e'.source, e'.target, e'.label) = (e.source, e.target, e.label))) := by
  obtain ⟨a1, a2⟩ := Rev4.parseGraph_nodes_spec rels
  obtain ⟨b1, b2, b3⟩ := Rev4.parseGraph_edges_spec rels
  obtain ⟨c1, c2⟩ := Rev5.parseGraphEnum_nodes_spec rels
  obtain ⟨d1, d2, d3⟩ := Rev5.parseGraphEnum_edges_spec rels
  exact ⟨⟨a1, a2, b1, b2, b3⟩, ⟨c1, c2, d1, d2, d3⟩⟩

theorem parseGraph_revisions_spec_witness :
    (∃ e' ∈ (Rev4.parseGraph ["x -> r -> y"]).2, e'.id = (Rev4.mkEdge "x" "r" "y").id) ∧
    (∃ n ∈ (Rev5.parseGraph ["x -> r -> y"]).1, n.id = "x") := by
  constructor
  · exact (parseGraph_revisions_spec ["x -> r -> y"]).1.2.2.2.2 "x -> r -> y" (by simp)
      (Rev4.mkEdge "x" "r" "y") (by rfl)
  · exact ((parseGraph_revisions_spec ["x -> r -> y"]).2.2.1 "x").mpr
      ⟨"x -> r -> y", by simp, by decide⟩

/-! ## Display-row projection (`convertToDisplayRows`)

`section` is a reserved word in Lean, so the row field is named `sect`. -/

/-- A UI display row. -/
structure DisplayRow where
  key : String
  sect : String
  field : String
  value : String
  page : String
  isNew : Bool
  rawResponse : Option String
  deriving DecidableEq

/-- Type `Partial<PolicyHeaderInfo>`: each property may be absent. -/
structure HeaderInfoP where
  insuredName : Option String
  clientCode : Option String
  policyNumber : Option String
  policyDates : Option String
  policyType : Option String
  policyPremium : Option String
  expiringPolicyPremium : Option String
  deriving DecidableEq

/-- One `{fieldName, value, page}` row of a section. -/
structure SectionFieldValue where
  fieldName : String
  value : String
  page : String
  deriving DecidableEq

/-- Type `Partial<PolicyData>`: `headerInfo` and `sections` may each be absent. -/
structure PartialPolicyData where
  headerInfo : Option HeaderInfoP
  sections : Option (List (String × List SectionFieldValue))
  deriving DecidableEq

/-- A candidate row together with the value filter the source applies
before pushing it. -/
structure RowCand where
  pass : Bool
  row : DisplayRow
  deriving DecidableEq

/-- Header-field candidate: filter
`showAllResponses || (value && value !== 'NF' && value !== "I don\x27t know." && ...)`,
row value `value || 'NF'`. -/
def mkHeaderCand (showAll : Bool) (field label : String) (value : Option String) : RowCand :=
  { pass := showAll ||
      (match value with
       | some v => !(v = "") && !(v = "NF") && !(v = "I don\x27t know.") && !(v = "I don\x27t know")
       | none => false)
    row := { key := "Header_" ++ field
             sect := "Header"
             field := label
             value := match value with
               | some v => if v = "" then "NF" else v
               | none => "NF"
             page := ""
             isNew := true
             rawResponse := value } }

/-- Section-field candidate: same filter plus a truthy `fieldName`. -/
def mkSectionCand (showAll : Bool) (sectionName : String) (f : SectionFieldValue) : RowCand :=
  { pass := showAll ||
      (!(f.value = "") && !(f.value = "NF") && !(f.value = "I don\x27t know.") &&
        !(f.value = "I don\x27t know") && !(f.fieldName = ""))
    row := { key := sectionName ++ "_" ++ f.fieldName
             sect := sectionName
             field := f.fieldName
             value := if f.value = "" then "NF" else f.value
             page := f.page
             isNew := true
             rawResponse := some f.value } }

/-- The candidates of one `convertToDisplayRows` call, in iteration order:
the seven header fields (when `headerInfo` is present), then every field
of every section entry. -/
def candsOf (data : PartialPolicyData) (showAll : Bool) : List RowCand :=
  (match data.headerInfo with
   | some h =>
     [mkHeaderCand showAll "insuredName" "Insured Name" h.insuredName,
      mkHeaderCand showAll "clientCode" "Client Code" h.clientCode,
      mkHeaderCand showAll "policyNumber" "Policy Number" h.policyNumber,
      mkHeaderCand showAll "policyDates" "Policy Dates" h.policyDates,
      mkHeaderCand showAll "policyType" "Policy Type" h.policyType,
      mkHeaderCand showAll "policyPremium" "Policy Premium" h.policyPremium,
      mkHeaderCand showAll "expiringPolicyPremium" "Expiring Policy Premium" h.expiringPolicyPremium]
   | none => []) ++
  (match data.sections with
   | some secs => secs.flatMap (fun p => p.2.map (mkSectionCand showAll p.1))
   | none => [])

/-- One candidate processed against `(rows, existingKeys)`: push only when
the filter passes and the key is not yet present. -/
def candStep (st : List DisplayRow × List String) (c : RowCand) :
    List DisplayRow × List String :=
  if c.pass then
    (if c.row.key ∈ st.2 then st else (st.1 ++ [c.row], st.2 ++ [c.row.key]))
  else st

/-- The loop over all candidates. -/
def applyCands (cs : List RowCand) (st : List DisplayRow × List String) :
    List DisplayRow × List String :=
  cs.foldl candStep st

/-- Function `convertToDisplayRows(data, existingRows, showAllResponses)`. -/
def convertToDisplayRows (data : PartialPolicyData) (existingRows : List DisplayRow)
    (showAll : Bool) : List DisplayRow :=
  (applyCands (candsOf data showAll) (existingRows, existingRows.map (fun r => r.key))).1

theorem applyCands_spec (cs : List RowCand) :
    ∀ (rows : List DisplayRow) (keys : List String), keys = rows.map (fun r => r.key) →
      ∃ app, applyCands cs (rows, keys) = (rows ++ app, (rows ++ app).map (fun r => r.key)) ∧
        (∀ r ∈ app, r.key ∉ keys) ∧
        (app.map (fun r => r.key)).Nodup ∧
        (∀ c ∈ cs, c.pass = true → c.row.key ∈ (rows ++ app).map (fun r => r.key)) := by
  induction cs with
  | nil =>
    intro rows keys hkeys
    refine ⟨[], ?_, by simp, by simp, by simp⟩
    simp [applyCands, hkeys]
  | cons c cs ih =>
    intro rows keys hkeys
    by_cases hpass : c.pass = true
    · by_cases hmem : c.row.key ∈ keys
      · have hstep : candStep (rows, keys) c = (rows, keys) := by
          unfold candStep
          rw [if_pos hpass]
          simp only [hmem, if_true]
        obtain ⟨app, h1, h2, h3, h4⟩ := ih rows keys hkeys
        refine ⟨app, ?_, h2, h3, ?_⟩
        · show applyCands (c :: cs) (rows, keys) = _
          unfold applyCands
          rw [List.foldl_cons, hstep]
          exact h1
        · intro c' hc' hp'
          rcases List.mem_cons.mp hc' with heq | hc''
          · rw [heq, List.map_append]
            exact List.mem_append_left _ (by rw [← hkeys]; exact hmem)
          · exact h4 c' hc'' hp'
      · have hstep : candStep (rows, keys) c = (rows ++ [c.row], keys ++ [c.row.key]) := by
          unfold candStep
          rw [if_pos hpass]
          simp only [hmem, if_false]
        obtain ⟨app, h1, h2, h3, h4⟩ :=
          ih (rows ++ [c.row]) (keys ++ [c.row.key]) (by rw [hkeys, List.map_append]; rfl)
        refine ⟨c.row :: app, ?_, ?_, ?_, ?_⟩
        · show applyCands (c :: cs) (rows, keys) = _
          unfold applyCands
          rw [List.foldl_cons, hstep]
          show applyCands cs _ = _
          rw [h1, List.append_assoc]
          rfl
        · intro r hr
          rcases List.mem_cons.mp hr with heq | hr'
          · rw [heq]; exact hmem
          · intro hk
            exact h2 r hr' (List.mem_append_left _ hk)
        · rw [List.map_cons, List.nodup_cons]
          refine ⟨?_, h3⟩
          intro hk
          obtain ⟨r, hr, hrk⟩ := List.mem_map.mp hk
          exact h2 r hr (by rw [hrk]; exact List.mem_append_right _ (by simp))
        · intro c' hc' hp'
          rcases List.mem_cons.mp hc' with heq | hc''
          · rw [heq, show rows ++ c.row :: app = (rows ++ [c.row]) ++ app from by
              rw [List.append_assoc]; rfl, List.map_append]
            exact List.mem_append_left _ (by rw [List.map_append]; simp)
          · have := h4 c' hc'' hp'
            rwa [show (rows ++ [c.row]) ++ app = rows ++ c.row :: app from by
              rw [List.append_assoc]; rfl] at this
    · have hstep : candStep (rows, keys) c = (rows, keys) := by
        unfold candStep
        rw [if_neg hpass]
      obtain ⟨app, h1, h2, h3, h4⟩ := ih rows keys hkeys
      refine ⟨app, ?_, h2, h3, ?_⟩
      · show applyCands (c :: cs) (rows, keys) = _
        unfold applyCands
        rw [List.foldl_cons, hstep]
        exact h1
      · intro c' hc' hp'
        rcases List.mem_cons.mp hc' with heq | hc''
        · rw [heq] at hp'
          exact absurd hp' hpass
        · exact h4 c' hc'' hp'

theorem applyCands_stable (cs : List RowCand) :
    ∀ st, (∀ c ∈ cs, c.pass = true → c.row.key ∈ st.2) → applyCands cs st = st := by
  induction cs with
  | nil => intro st _; rfl
  | cons c cs ih =>
    intro st h
    have hstep : candStep st c = st := by
      unfold candStep
      by_cases hpass : c.pass = true
      · rw [if_pos hpass]
        simp only [h c (List.mem_cons_self _ _) hpass, if_true]
      · rw [if_neg (fun hh => hpass hh)]
    show applyCands (c :: cs) st = st
    unfold applyCands
    rw [List.foldl_cons, hstep]
    exact ih st (fun c' hc' => h c' (List.mem_cons_of_mem _ hc'))

/-- C10: `convertToDisplayRows` keeps the existing rows unchanged as a
prefix and appends only rows with keys not already present and pairwise
distinct; hence distinct input keys give distinct output keys, and
re-applying the function with its own output as the existing rows
appends nothing. -/
theorem convertToDisplayRows_spec (data : PartialPolicyData) (existing : List DisplayRow)
    (showAll : Bool) :
    (∃ app, convertToDisplayRows data existing showAll = existing ++ app ∧
       (∀ r ∈ app, r.key ∉ existing.map (fun r => r.key)) ∧
       (app.map (fun r => r.key)).Nodup) ∧
    ((existing.map (fun r => r.key)).Nodup →
      ((convertToDisplayRows data existing showAll).map (fun r => r.key)).Nodup) ∧
    convertToDisplayRows data (convertToDisplayRows data existing showAll) showAll =
      convertToDisplayRows data existing showAll := by
  obtain ⟨app, h1, h2, h3, h4⟩ :=
    applyCands_spec (candsOf data showAll) existing (existing.map (fun r => r.key)) rfl
  have hout : convertToDisplayRows data existing showAll = existing ++ app := by
    unfold convertToDisplayRows
    rw [h1]
  refine ⟨⟨app, hout, h2, h3⟩, ?_, ?_⟩
  · intro hnd
    rw [hout, List.map_append, List.nodup_append]
    refine ⟨hnd, h3, ?_⟩
    intro a ha hb
    obtain ⟨r, hr, hrk⟩ := List.mem_map.mp hb
    exact h2 r hr (by rw [hrk]; exact ha)
  · have hstable := applyCands_stable (candsOf data showAll)
      (existing ++ app, (existing ++ app).map (fun r => r.key))
      (fun c hc hp => h4 c hc hp)
    show (applyCands (candsOf data showAll)
      (convertToDisplayRows data existing showAll,
       (convertToDisplayRows data existing showAll).map (fun r => r.key))).1 =
      convertToDisplayRows data existing showAll
    rw [hout, hstable]

/-- Concrete partial record used by the witness. -/
def samplePartialData : PartialPolicyData :=
  { headerInfo := some
      { insuredName := some "ACME"
        clientCode := none
        policyNumber := none
        policyDates := none
        policyType := none
        policyPremium := none
        expiringPolicyPremium := none }
    sections := some [("Property", [{ fieldName := "Limit", value := "5", page := "2" }])] }

theorem convertToDisplayRows_spec_witness :
    ((convertToDisplayRows samplePartialData [] false).map (fun r => r.key)).Nodup ∧
    convertToDisplayRows samplePartialData (convertToDisplayRows samplePartialData [] false) false =
      convertToDisplayRows samplePartialData [] false :=
  ⟨(convertToDisplayRows_spec samplePartialData [] false).2.1 (by simp),
   (convertToDisplayRows_spec samplePartialData [] false).2.2⟩

/-! ## Progressive field extractor (`extractPolicyData` with cache,
progress callback and query counting)

The backend is abstracted by an oracle giving the network outcome of each
query: one per header field, one per retry attempt of the sections query,
one per retry attempt of each per-section fields query, and one per field
value query.  JS numbers in the progress arithmetic are modelled as exact
rationals. -/

/-- The complete header record. -/
structure HeaderInfo where
  insuredName : String
  clientCode : String
  policyNumber : String
  policyDates : String
  policyType : String
  policyPremium : String
  expiringPolicyPremium : String
  deriving DecidableEq

/-- Type `PolicyData`: header plus the `sections` object (insertion-ordered
string-keyed object). -/
structure PolicyData where
  headerInfo : HeaderInfo
  sections : List (String × List SectionFieldValue)
  deriving DecidableEq

/-- Model of `policyData.sections[section] = rows`: replace in place or append. -/
def objSet (m : List (String × List SectionFieldValue)) (k : String)
    (v : List SectionFieldValue) : List (String × List SectionFieldValue) :=
  if m.any (fun p => p.1 = k) then m.map (fun p => if p.1 = k then (k, v) else p)
  else m ++ [(k, v)]

/-- Network outcomes of every query one extraction run may issue. -/
structure Oracle where
  headerResp : Nat → NetOutcome
  sectionsResp : Nat → NetOutcome
  fieldsResp : String → Nat → NetOutcome
  valueResp : String → String → NetOutcome

/-- Model of `resp.split(comma).map(s => s.trim()).filter(s => s && s !== 'NF')`. -/
def parseList (s : String) : List String :=
  ((jsSplitOn s ",").map jsTrim).filter (fun x => !(x = "") && !(x = "NF"))

/-- Header-loop progress: `5 + Math.floor((i + 1) / headerPrompts.length * 25)`. -/
def headerProgress (i : Nat) : ℤ :=
  5 + ⌊(((i : ℚ) + 1) / 7) * 25⌋

/-- Field-loop progress:
`Math.min(Math.floor(35 + i * w + (j + 1) * (w / (F || 1))), 98)` with
`w = (1.0 / S) * 63`. -/
def progressEntry (S F i j : Nat) : ℤ :=
  let w : ℚ := (1 / (S : ℚ)) * 63
  let wf : ℚ := w / (((if F = 0 then 1 else F : Nat)) : ℚ)
  min ⌊(35 : ℚ) + (i : ℚ) * w + ((j : ℚ) + 1) * wf⌋ 98

/-- All per-field progress emissions, in loop order. -/
def sectionTrace (S : Nat) (F : Nat → Nat) : List ℤ :=
  (List.range S).flatMap fun i => (List.range (F i)).map fun j => progressEntry S (F i) i j

/-- Result of one uncached run: the record, the progress values passed to
`setProgress` in order, and the number of network queries issued. -/
structure ExtractRun where
  data : PolicyData
  trace : List ℤ
  queries : Nat
  deriving DecidableEq

/-- The uncached body of `extractPolicyData`: seven header queries (each
trimmed into its field), one retried sections query, then per section a
retried fields query and one value query per field (rows pushed even when
`"NF"`), with the progress emissions 5, per-header, 35, per-field, 100. -/
def runExtraction (o : Oracle) : ExtractRun :=
  let headerResult : Nat → String := fun i => jsTrim (queryRAG (o.headerResp i))
  let headerInfo : HeaderInfo :=
    { insuredName := headerResult 0
      clientCode := headerResult 1
      policyNumber := headerResult 2
      policyDates := headerResult 3
      policyType := headerResult 4
      policyPremium := headerResult 5
      expiringPolicyPremium := headerResult 6 }
  let secQ := queryWithRetry o.sectionsResp 2
  let sections := parseList secQ.1
  let S := sections.length
  let fieldsQ : Nat → String × Nat := fun i => queryWithRetry (o.fieldsResp (sections.getD i "")) 2
  let fieldsAt : Nat → List String := fun i => parseList (fieldsQ i).1
  let F : Nat → Nat := fun i => (fieldsAt i).length
  let rowsAt : Nat → List SectionFieldValue := fun i =>
    (fieldsAt i).map fun fld =>
      let vp := parseValuePage (queryRAG (o.valueResp (sections.getD i "") fld))
      { fieldName := fld, value := vp.1, page := vp.2 }
  { data :=
      { headerInfo := headerInfo
        sections := (List.range S).foldl (fun acc i => objSet acc (sections.getD i "") (rowsAt i)) [] }
    trace := 5 :: ((List.range 7).map headerProgress ++ 35 :: (sectionTrace S F ++ [100]))
    queries := 7 + secQ.2 + ((List.range S).map (fun i => (fieldsQ i).2 + F i)).sum }

/-- Result of one `extractPolicyData` call: the returned record, the cache
afterwards, the progress trace, and the queries issued. -/
structure ExtractResult where
  data : PolicyData
  cache : String → Option PolicyData
  trace : List ℤ
  queries : Nat

/-- Function `extractPolicyData`: serve from `policyDataCache` (progress 100, no
query) or run the extraction and store the record under the policy id. -/
def extractPolicyData (cache : String → Option PolicyData) (policyId : String)
    (o : Oracle) : ExtractResult :=
  match cache policyId with
  | some d => { data := d, cache := cache, trace := [100], queries := 0 }
  | none =>
    let run := runExtraction o
    { data := run.data
      cache := fun k => if k = policyId then some run.data else cache k
      trace := run.trace
      queries := run.queries }

/-- C5: with no cached entry beforehand, a second extraction for the same
policy id right after the first issues zero queries and returns a record
equal to the first, whatever the backend would have answered. -/
theorem extract_cache_hit (cache : String → Option PolicyData) (pid : String)
    (o o' : Oracle) (h : cache pid = none) :
    (extractPolicyData (extractPolicyData cache pid o).cache pid o').queries = 0 ∧
    (extractPolicyData (extractPolicyData cache pid o).cache pid o').data =
      (extractPolicyData cache pid o).data := by
  unfold extractPolicyData
  rw [h]
  simp

/-- Oracle on which every query fails (and so yields `"NF"`). -/
def sampleOracle : Oracle :=
  { headerResp := fun _ => .netThrow
    sectionsResp := fun _ => .netThrow
    fieldsResp := fun _ _ => .netThrow
    valueResp := fun _ _ => .netThrow }

theorem extract_cache_hit_witness :
    (extractPolicyData (extractPolicyData (fun _ => none) "P1" sampleOracle).cache
      "P1" sampleOracle).queries = 0 ∧
    (extractPolicyData (extractPolicyData (fun _ => none) "P1" sampleOracle).cache
      "P1" sampleOracle).data =
      (extractPolicyData (fun _ => none) "P1" sampleOracle).data :=
  extract_cache_hit (fun _ => none) "P1" sampleOracle sampleOracle rfl

theorem progressEntry_w_nonneg (S : Nat) : (0 : ℚ) ≤ (1 / (S : ℚ)) * 63 := by
  positivity

theorem progressEntry_wf_nonneg (S F : Nat) :
    (0 : ℚ) ≤ (1 / (S : ℚ)) * 63 / (((if F = 0 then 1 else F : Nat)) : ℚ) := by
  apply div_nonneg (progressEntry_w_nonneg S)
  positivity

theorem progressEntry_ge (S F i j : Nat) : (35 : ℤ) ≤ progressEntry S F i j := by
  simp only [progressEntry]
  apply le_min ?_ (by norm_num)
  rw [Int.le_floor]
  have h1 : (0 : ℚ) ≤ (i : ℚ) * ((1 / (S : ℚ)) * 63) :=
    mul_nonneg (by positivity) (progressEntry_w_nonneg S)
  have h2 : (0 : ℚ) ≤ ((j : ℚ) + 1) *
      ((1 / (S : ℚ)) * 63 / (((if F = 0 then 1 else F : Nat)) : ℚ)) :=
    mul_nonneg (by positivity) (progressEntry_wf_nonneg S F)
  push_cast at h1 h2 ⊢
  linarith

theorem progressEntry_le (S F i j : Nat) : progressEntry S F i j ≤ 98 := by
  simp only [progressEntry]
  exact min_le_right _ _

theorem progressEntry_mono_j (S F i : Nat) {j j' : Nat} (h : j ≤ j') :
    progressEntry S F i j ≤ progressEntry S F i j' := by
  simp only [progressEntry]
  apply min_le_min ?_ le_rfl
  apply Int.floor_le_floor
  have hwf := progressEntry_wf_nonneg S F
  have hj : ((j : ℚ) + 1) ≤ ((j' : ℚ) + 1) := by
    have := (Nat.cast_le (α := ℚ)).mpr h
    linarith
  have := mul_le_mul_of_nonneg_right hj hwf
  linarith

theorem progressEntry_cross (S F F' i i' j j' : Nat) (hii : i < i') (hj : j < F) :
    progressEntry S F i j ≤ progressEntry S F' i' j' := by
  have hF : F ≠ 0 := by omega
  simp only [progressEntry]
  apply min_le_min ?_ le_rfl
  apply Int.floor_le_floor
  have hw := progressEntry_w_nonneg S
  have hwf' := progressEntry_wf_nonneg S F'
  have hFpos : (F : ℚ) ≠ 0 := Nat.cast_ne_zero.mpr hF
  have h1 : ((j : ℚ) + 1) ≤ (F : ℚ) := by
    have h1n : (j + 1 : Nat) ≤ F := hj
    exact_mod_cast h1n
  have h2 : ((j : ℚ) + 1) *
      ((1 / (S : ℚ)) * 63 / (((if F = 0 then 1 else F : Nat)) : ℚ)) ≤ (1 / (S : ℚ)) * 63 := by
    rw [if_neg hF]
    calc ((j : ℚ) + 1) * ((1 / (S : ℚ)) * 63 / (F : ℚ))
        ≤ (F : ℚ) * ((1 / (S : ℚ)) * 63 / (F : ℚ)) := by
          apply mul_le_mul_of_nonneg_right h1
          apply div_nonneg hw
          positivity
      _ = (1 / (S : ℚ)) * 63 := by
          rw [mul_comm, div_mul_cancel₀ _ hFpos]
  have h3 : ((i : ℚ) + 1) * ((1 / (S : ℚ)) * 63) ≤ (i' : ℚ) * ((1 / (S : ℚ)) * 63) := by
    apply mul_le_mul_of_nonneg_right ?_ hw
    have h3n : (i + 1 : Nat) ≤ i' := hii
    exact_mod_cast h3n
  have h4 : (0 : ℚ) ≤ ((j' : ℚ) + 1) *
      ((1 / (S : ℚ)) * 63 / (((if F' = 0 then 1 else F' : Nat)) : ℚ)) :=
    mul_nonneg (by positivity) hwf'
  linarith

theorem pairwise_le_flatMap (g : Nat → List ℤ) :
    ∀ S, (∀ i, i < S → (g i).Pairwise (· ≤ ·)) →
      (∀ i j, i < j → j < S → ∀ x ∈ g i, ∀ y ∈ g j, x ≤ y) →
      ((List.range S).flatMap g).Pairwise (· ≤ ·) := by
  intro S
  induction S with
  | zero =>
    intro _ _
    simp
  | succ S ih =>
    intro h1 h2
    rw [List.range_succ, List.flatMap_append]
    rw [List.pairwise_append]
    refine ⟨ih (fun i hi => h1 i (by omega)) (fun i j hij hj => h2 i j hij (by omega)), ?_, ?_⟩
    · simp only [List.flatMap_cons, List.flatMap_nil, List.append_nil]
      exact h1 S (by omega)
    · intro x hx y hy
      obtain ⟨i, hi, hxi⟩ := List.mem_flatMap.mp hx
      have hiS : i < S := List.mem_range.mp hi
      have hy' : y ∈ g S := by simpa using hy
      exact h2 i S hiS (by omega) x hxi y hy'

theorem sectionTrace_pairwise (S : Nat) (F : Nat → Nat) :
    (sectionTrace S F).Pairwise (· ≤ ·) := by
  unfold sectionTrace
  apply pairwise_le_flatMap
  · intro i _
    rw [List.pairwise_map]
    apply List.Pairwise.imp ?_ (List.pairwise_lt_range (F i))
    intro a b hab
    exact progressEntry_mono_j S (F i) i (le_of_lt hab)
  · intro i j hij _ x hx y hy
    obtain ⟨a, ha, hax⟩ := List.mem_map.mp hx
    obtain ⟨b, hb, hby⟩ := List.mem_map.mp hy
    have haF : a < F i := List.mem_range.mp ha
    rw [← hax, ← hby]
    exact progressEntry_cross S (F i) (F j) i j a b hij haF

theorem sectionTrace_mem_bounds (S : Nat) (F : Nat → Nat) (x : ℤ)
    (hx : x ∈ sectionTrace S F) : (35 : ℤ) ≤ x ∧ x ≤ 98 := by
  unfold sectionTrace at hx
  obtain ⟨i, _, hxi⟩ := List.mem_flatMap.mp hx
  obtain ⟨j, _, hjx⟩ := List.mem_map.mp hxi
  rw [← hjx]
  exact ⟨progressEntry_ge _ _ _ _, progressEntry_le _ _ _ _⟩

theorem headerProgress_values :
    (List.range 7).map headerProgress = [8, 12, 15, 19, 22, 26, 30] := by
  rw [show List.range 7 = [0, 1, 2, 3, 4, 5, 6] from rfl]
  simp only [List.map_cons, List.map_nil, headerProgress]
  norm_num

theorem fullTrace_spec (S : Nat) (F : Nat → Nat) :
    ((5 : ℤ) :: ((List.range 7).map headerProgress ++ 35 :: (sectionTrace S F ++ [100]))).Chain' (· ≤ ·) ∧
    ((5 : ℤ) :: ((List.range 7).map headerProgress ++ 35 :: (sectionTrace S F ++ [100]))).getLast? = some 100 ∧
    ∀ x ∈ ((5 : ℤ) :: ((List.range 7).map headerProgress ++ 35 :: (sectionTrace S F ++ [100]))).dropLast, x < 100 := by
  have hhdr := headerProgress_values
  have hshape : (5 : ℤ) :: ((List.range 7).map headerProgress ++ 35 :: (sectionTrace S F ++ [100])) =
      ([5, 8, 12, 15, 19, 22, 26, 30, 35] ++ sectionTrace S F) ++ [100] := by
    rw [hhdr]
    simp
  rw [hshape]
  have hconcrete : ∀ x : ℤ, x ∈ ([5, 8, 12, 15, 19, 22, 26, 30, 35] : List ℤ) → x ≤ 35 := by
    intro x hx
    simp only [List.mem_cons, List.not_mem_nil, or_false] at hx
    rcases hx with rfl | rfl | rfl | rfl | rfl | rfl | rfl | rfl | rfl <;> decide
  refine ⟨?_, ?_, ?_⟩
  · rw [List.chain'_iff_pairwise]
    rw [List.pairwise_append]
    refine ⟨?_, by simp, ?_⟩
    · rw [List.pairwise_append]
      refine ⟨by decide, sectionTrace_pairwise S F, ?_⟩
      intro x hx y hy
      have h1 := hconcrete x hx
      have h2 := (sectionTrace_mem_bounds S F y hy).1
      omega
    · intro x hx y hy
      have hy100 : y = 100 := by simpa using hy
      rcases List.mem_append.mp hx with h | h
      · have := hconcrete x h
        omega
      · have := (sectionTrace_mem_bounds S F x h).2
        omega
  · rw [List.getLast?_concat]
  · rw [List.dropLast_concat]
    intro x hx
    rcases List.mem_append.mp hx with h | h
    · have := hconcrete x h
      omega
    · have := (sectionTrace_mem_bounds S F x h).2
      omega

/-- C4: over one extractPolicyData run the progress values are
non-decreasing, the last reported value is 100, and every earlier value is
strictly below 100 (the cache-hit run reports just 100). -/
theorem extractProgress_spec (cache : String → Option PolicyData) (pid : String) (o : Oracle) :
    ((extractPolicyData cache pid o).trace).Chain' (· ≤ ·) ∧
    ((extractPolicyData cache pid o).trace).getLast? = some 100 ∧
    ∀ x ∈ ((extractPolicyData cache pid o).trace).dropLast, x < 100 := by
  cases hc : cache pid with
  | some d =>
    unfold extractPolicyData
    rw [hc]
    exact ⟨by simp, by simp, by simp⟩
  | none =>
    unfold extractPolicyData
    rw [hc]
    simp only [runExtraction]
    exact fullTrace_spec _ _

theorem sampleTrace_eq :
    (extractPolicyData (fun _ => none) "P1" sampleOracle).trace =
      [5, 8, 12, 15, 19, 22, 26, 30, 35, 100] := by
  show (5 : ℤ) :: ((List.range 7).map headerProgress ++ 35 :: (([] : List ℤ) ++ [100])) = _
  rw [headerProgress_values]
  rfl

theorem extractProgress_spec_witness :
    ((extractPolicyData (fun _ => none) "P1" sampleOracle).trace).Chain' (· ≤ ·) ∧
    (5 : ℤ) ∈ ((extractPolicyData (fun _ => none) "P1" sampleOracle).trace).dropLast ∧
    (5 : ℤ) < 100 :=
  ⟨(extractProgress_spec (fun _ => none) "P1" sampleOracle).1,
   by rw [show ((extractPolicyData (fun _ => none) "P1" sampleOracle).trace).dropLast =
        ([5, 8, 12, 15, 19, 22, 26, 30, 35, 100] : List ℤ).dropLast from by rw [sampleTrace_eq]]
      decide,
   (extractProgress_spec (fun _ => none) "P1" sampleOracle).2.2 5
     (by rw [show ((extractPolicyData (fun _ => none) "P1" sampleOracle).trace).dropLast =
          ([5, 8, 12, 15, 19, 22, 26, 30, 35, 100] : List ℤ).dropLast from by rw [sampleTrace_eq]]
         decide)⟩
